import Mathlib

/-!
Verification development for the VideoHub backend (`main.py`): a FastAPI
service wrapping yt-dlp and the YouTube Data API, with a SQLite channel
cache.  The definitions below are a shallow embedding of the Python source:
strings are `List Char`, SQLite rows are a Lean structure, timestamps
(`datetime.utcnow().isoformat()`, which compares lexicographically in
chronological order) are modelled as an abstract `Nat` clock value passed
in explicitly, and the generator used by the `/download` endpoint is
modelled as an explicit state machine.
-/

/-- Characters of a string literal, used to write Python string constants. -/
def st (s : String) : List Char := s.data

/-! ## `clean_youtube_url` (main.py lines 78-87)

```python
def clean_youtube_url(url: str) -> str:
    url = url.strip()
    m = re.search(r"https?://(?:www\.)?youtube\.com/shorts/([\w-]{6,})", url)
    if m:
        return f"https://www.youtube.com/watch?v=\x7bm.group(1)\x7d"
    m = re.search(r"(https?://(?:www\.)?(?:youtube\.com/watch\?v=|youtu\.be/)[\w-]{6,})", url)
    return m.group(1) if m else url
```

The two regexes are concrete enough to embed directly: a `re.search` is a
leftmost scan trying the pattern at every start position; the pattern
itself is a cascade of literal alternatives (`https?`, optional `www.`,
the host/path literal) followed by a greedy character class `[\w-]{6,}`.
The alternatives are expanded in exactly the order a backtracking engine
tries them; since no two alternative literals are prefixes of one another,
at most one alternative can match at a given position, so committing to
the first literal that matches is equivalent to full backtracking. -/

/-- ASCII core of Python's `\w` class (`[a-zA-Z0-9_]`).  Python's `re`
additionally treats non-ASCII Unicode word characters as `\w`; the model
restricts to the ASCII core (the "URL-safe characters" of the
specification), on which it agrees with the source exactly. -/
def isWordChar (c : Char) : Bool := c.isAlphanum || c = '_'

/-- The character class `[\w-]` used for video ids. -/
def isIdChar (c : Char) : Bool := isWordChar c || c = '-'

/-- The whitespace stripped by Python's `str.strip()` (ASCII part; Python
also strips a handful of non-ASCII Unicode space characters). -/
def pyIsSpace (c : Char) : Bool :=
  c = ' ' || c = '\t' || c = '\n' || c = '\r' || c = Char.ofNat 11 || c = Char.ofNat 12

/-- Python `str.strip()`: drop whitespace from both ends. -/
def pyStrip (l : List Char) : List Char :=
  List.rdropWhile pyIsSpace (List.dropWhile pyIsSpace l)

/-- Match a literal at the start of `s`; on success return the rest of `s`. -/
def dropLit : List Char → List Char → Option (List Char)
  | [], s => some s
  | _ :: _, [] => none
  | p :: ps, c :: cs => if p = c then dropLit ps cs else none

/-- Try a list of alternative literals in order (backtracking order of the
regex alternation); return the literal that matched and the rest. -/
def tryLits : List (List Char) → List Char → Option (List Char × List Char)
  | [], _ => none
  | l :: ls, s =>
    match dropLit l s with
    | some r => some (l, r)
    | none => tryLits ls s

/-- Alternatives of `https?://`, in the order a greedy engine tries them. -/
def schemeLits : List (List Char) := [st "https://", st "http://"]

/-- Alternatives of `(?:www\.)?youtube\.com/shorts/`. -/
def shortsLits : List (List Char) := [st "www.youtube.com/shorts/", st "youtube.com/shorts/"]

/-- Alternatives of `(?:www\.)?(?:youtube\.com/watch\?v=|youtu\.be/)`. -/
def watchLits : List (List Char) :=
  [st "www.youtube.com/watch?v=", st "www.youtu.be/",
   st "youtube.com/watch?v=", st "youtu.be/"]

/-- Try the shorts pattern at the current position; return the captured id
(group 1, the greedy maximal run of `[\w-]`, required length at least 6). -/
def matchShortsAt (s : List Char) : Option (List Char) :=
  match tryLits schemeLits s with
  | none => none
  | some (_, r1) =>
    match tryLits shortsLits r1 with
    | none => none
    | some (_, r2) =>
      let id := r2.takeWhile isIdChar
      if 6 ≤ id.length then some id else none

/-- Try the watch/youtu.be pattern at the current position; return the whole
matched substring (the regex wraps the entire pattern in group 1). -/
def matchWatchAt (s : List Char) : Option (List Char) :=
  match tryLits schemeLits s with
  | none => none
  | some (sch, r1) =>
    match tryLits watchLits r1 with
    | none => none
    | some (core, r2) =>
      let id := r2.takeWhile isIdChar
      if 6 ≤ id.length then some (sch ++ core ++ id) else none

/-- `re.search` with the shorts pattern: leftmost position that matches. -/
def searchShorts : List Char → Option (List Char)
  | [] => none
  | c :: cs =>
    match matchShortsAt (c :: cs) with
    | some r => some r
    | none => searchShorts cs

/-- `re.search` with the watch pattern: leftmost position that matches. -/
def searchWatch : List Char → Option (List Char)
  | [] => none
  | c :: cs =>
    match matchWatchAt (c :: cs) with
    | some r => some r
    | none => searchWatch cs

/-- `clean_youtube_url` (main.py lines 78-87). -/
def clean_youtube_url (url : List Char) : List Char :=
  let u := pyStrip url
  match searchShorts u with
  | some id => st "https://www.youtube.com/watch?v=" ++ id
  | none =>
    match searchWatch u with
    | some m => m
    | none => u

/-! ## The channel cache (main.py lines 56-74, 113-131, 207-216)

A SQLite table `channels(id PRIMARY KEY, title, thumbnail, saved_at,
last_used_at)` is modelled as a list of rows; nullable TEXT columns are
`Option`, and the ISO timestamp strings are modelled as `Nat` clock values
(ISO-8601 strings compare lexicographically in chronological order). -/

/-- One row of the `channels` table. -/
structure ChannelRow where
  id : List Char
  title : Option (List Char)
  thumbnail : Option (List Char)
  saved_at : Nat
  last_used_at : Nat
  deriving DecidableEq, Repr

/-- The `WHERE id=?` predicate. -/
def byId (i : List Char) : ChannelRow → Bool := fun r => decide (r.id = i)

/-- SQL `COALESCE(x, y)`. -/
def coalesce (x y : Option (List Char)) : Option (List Char) :=
  match x with
  | some v => some v
  | none => y

/-- The row transformation of
`UPDATE channels SET title=COALESCE(?, title), thumbnail=COALESCE(?, thumbnail),
last_used_at=? WHERE id=?` applied to one row. -/
def updRow (title thumb : Option (List Char)) (now : Nat) (i : List Char)
    (r : ChannelRow) : ChannelRow :=
  if r.id = i then
    { r with title := coalesce title r.title, thumbnail := coalesce thumb r.thumbnail,
             last_used_at := now }
  else r

/-- `upsert_channel` (main.py lines 113-131).  `ch_id` is `Option` because
callers pass `info.get("channel_id")`, which may be `None`; `if not ch_id`
is falsy for both `None` and the empty string.  The `SELECT` existence
check is `find?`, the `UPDATE ... WHERE id=?` maps `updRow` over the
table, and the `INSERT` appends a fresh row with
`saved_at = last_used_at = now`. -/
def upsert_channel (ch_id : Option (List Char)) (title thumb : Option (List Char))
    (now : Nat) (db : List ChannelRow) : List ChannelRow :=
  match ch_id with
  | none => db
  | some i =>
    if i = [] then db
    else
      match db.find? (byId i) with
      | some _ => db.map (updRow title thumb now i)
      | none => db ++ [⟨i, title, thumb, now, now⟩]

/-- `ORDER BY last_used_at DESC`: row `a` may precede row `b`. -/
def lastDesc (a b : ChannelRow) : Prop := b.last_used_at ≤ a.last_used_at

instance : DecidableRel lastDesc := fun a b => Nat.decLe b.last_used_at a.last_used_at

instance : IsTotal ChannelRow lastDesc :=
  ⟨fun a b => Nat.le_total b.last_used_at a.last_used_at⟩

instance : IsTrans ChannelRow lastDesc :=
  ⟨fun _ _ _ h1 h2 => Nat.le_trans h2 h1⟩

/-- Strictly-descending version of `lastDesc`, used to state uniqueness of
the sorted order when the timestamps are pairwise distinct. -/
def lastStrictDesc (a b : ChannelRow) : Prop := b.last_used_at < a.last_used_at

instance : IsAntisymm ChannelRow lastStrictDesc :=
  ⟨fun a b h1 h2 => absurd (Nat.lt_trans h1 h2) (Nat.lt_irrefl _)⟩

/-- `list_channels` (main.py lines 207-216):
`SELECT ... FROM channels ORDER BY last_used_at DESC`.  Any sort producing
the `ORDER BY` order is a faithful model of the SQL query. -/
def list_channels (db : List ChannelRow) : List ChannelRow :=
  List.insertionSort lastDesc db

/-- Table invariant: the primary key makes ids unique, and a row is never
written with `saved_at` above `last_used_at`. -/
def WFdb (db : List ChannelRow) : Prop :=
  db.Pairwise (fun a b => a.id ≠ b.id) ∧ ∀ r ∈ db, r.saved_at ≤ r.last_used_at

/-- One call to `upsert_channel`, as data: arguments plus the clock value
read by `datetime.utcnow()` during the call. -/
structure UpsertOp where
  ch_id : Option (List Char)
  title : Option (List Char)
  thumb : Option (List Char)
  time : Nat
  deriving DecidableEq, Repr

/-- A sequence of upserts applied in order. -/
def applyOps (db : List ChannelRow) (ops : List UpsertOp) : List ChannelRow :=
  ops.foldl (fun d op => upsert_channel op.ch_id op.title op.thumb op.time d) db

/-- A non-decreasing clock: every operation's timestamp is at or after every
`last_used_at` already in the table, and the operations happen in time order. -/
def Chrono (db : List ChannelRow) (ops : List UpsertOp) : Prop :=
  (∀ r ∈ db, ∀ op ∈ ops, r.last_used_at ≤ op.time) ∧
    ops.Pairwise (fun a b => a.time ≤ b.time)

/-! ## The download pipeline (main.py lines 154-204)

The handler normalizes the URL, best-effort fetches metadata (`try` around
`extract_info` + `upsert_channel` + the title expression; on any exception
it falls back to `info = \x7b\x7d` and `title_for_name = "video"`), invokes
yt-dlp to materialize a file, and returns a `StreamingResponse` whose
`Content-Disposition` filename is the sanitized title.  The two external
collaborators are oracles: `meta` is the outcome of `extract_info` (`none`
means it raised) and `media` is the outcome of the yt-dlp download (`none`
means it raised, which the outer `try` turns into a 500 JSON error). -/

/-- The fields of the `extract_info` result dict the download handler reads. -/
structure VideoInfo where
  title : Option (List Char)
  uploader : Option (List Char)
  channel_id : Option (List Char)
  thumbnail : Option (List Char)
  deriving DecidableEq, Repr

/-- `x or "video"` for the title: `None` and `""` are falsy. -/
def pyOrVideo (t : Option (List Char)) : List Char :=
  match t with
  | none => st "video"
  | some s => if s = [] then st "video" else s

/-- `.replace("\n", " ")`. -/
def pyReplaceNl (l : List Char) : List Char :=
  l.map (fun c => if c = '\n' then ' ' else c)

/-- `(info.get("title") or "video").strip().replace("\n", " ")[:100]`
(main.py line 163). -/
def title_for_name (t : Option (List Char)) : List Char :=
  (pyReplaceNl (pyStrip (pyOrVideo t))).take 100

/-- The character class `[\w\- .]` kept by the filename sanitizer. -/
def keepChar (c : Char) : Bool := isWordChar c || c = '-' || c = ' ' || c = '.'

/-- `re.sub(r"[^\w\- .]", "_", t) + ".mp4"` (main.py line 199). -/
def filename_safe (t : List Char) : List Char :=
  t.map (fun c => if keepChar c then c else '_') ++ st ".mp4"

/-- The filename the download handler actually emits for a given raw title
value: the source's `title_for_name` chain followed by `filename_safe`. -/
def derivedFilename (t : Option (List Char)) : List Char :=
  filename_safe (title_for_name t)

/-- The filename derivation as the specification words it: "truncating the
title to 100 characters, stripping newlines, replacing every character
outside word-characters/hyphen/space/period with underscore, and appending
the fixed `.mp4` container extension".  Stated for comparison with
`derivedFilename`; the spec sentence mentions no whitespace trimming and
orders truncation first. -/
def specDisplayName (t : Option (List Char)) : List Char :=
  (((pyOrVideo t).take 100).filter (fun c => ¬ c = '\n')).map
      (fun c => if keepChar c then c else '_') ++ st ".mp4"

/-- A successful `/download` response: the `Content-Disposition` filename,
the media type, and the streamed file content (bytes as `Nat`). -/
structure DlResponse where
  filename : List Char
  media_type : List Char
  content : List Nat
  deriving DecidableEq, Repr

/-- Outcome of the `/download` handler: a streaming response, or the 500
JSON error produced by the outer `except`. -/
inductive DlResult
  | ok (resp : DlResponse)
  | err500 (msg : List Char)
  deriving DecidableEq, Repr

/-- The `/download` handler (main.py lines 154-204), with the two external
effects (`extract_info`, the yt-dlp download) passed in as oracles and the
channel table threaded explicitly.  Returns the table after the request and
the HTTP outcome.  Note the inner `try` (lines 160-166): when `meta` is
`none` the upsert is skipped and the fallback title is used, but the
pipeline continues. -/
def download (url : List Char) (meta : Option VideoInfo) (media : Option (List Nat))
    (now : Nat) (db : List ChannelRow) : List ChannelRow × DlResult :=
  let _u := clean_youtube_url url
  match meta with
  | some info =>
    let db1 := upsert_channel info.channel_id info.uploader info.thumbnail now db
    match media with
    | none => (db1, DlResult.err500 (st "download failed"))
    | some content =>
      (db1, DlResult.ok ⟨derivedFilename info.title, st "video/mp4", content⟩)
  | none =>
    match media with
    | none => (db, DlResult.err500 (st "download failed"))
    | some content =>
      (db, DlResult.ok ⟨filename_safe (st "video"), st "video/mp4", content⟩)

/-! ## The streaming generator `stream_and_delete` (main.py lines 188-197)

```python
def stream_and_delete():
    with open(final_path, "rb") as f:
        while chunk := f.read(1024 * 1024):
            yield chunk
    try:
        os.remove(final_path)
    except Exception:
        pass
```

Python generator semantics: each `next()` resumes the body until the next
`yield` or until the body returns; `close()` on a generator suspended at a
`yield` raises `GeneratorExit` at that `yield`, which unwinds the `with`
block (closing the file) and propagates out of the function — control never
reaches the `os.remove` line, because there is no `try/finally` enclosing
the loop.  The `os.remove` line is reached exactly when the `while` loop
exits normally (a read returned `b""`). -/

/-- `f.read(1024 * 1024)` reads at most this many bytes. -/
def chunkSize : Nat := 1024 * 1024

/-- State of one `stream_and_delete` generator: the bytes not yet read from
the file, whether the generator has terminated (normally or by close), and
whether the file at `final_path` still exists on disk. -/
structure GenState where
  remaining : List Nat
  finished : Bool
  fileExists : Bool
  deriving DecidableEq, Repr

/-- Generator freshly created over a file with the given content. -/
def initGen (content : List Nat) : GenState := ⟨content, false, true⟩

/-- One `next()` call: yield the next chunk, or — when the read returns
empty — exit the loop, execute `os.remove` (exceptions swallowed), and
stop (`StopIteration`). -/
def genNext (s : GenState) : Option (List Nat) × GenState :=
  if s.finished then (none, s)
  else if s.remaining = [] then
    (none, { s with finished := true, fileExists := false })
  else
    (some (s.remaining.take chunkSize), { s with remaining := s.remaining.drop chunkSize })

/-- `close()` on the generator: `GeneratorExit` is raised at the suspended
`yield` inside the `with` block; the function unwinds without reaching the
`os.remove` statement, so the file is left as it is. -/
def genClose (s : GenState) : GenState :=
  if s.finished then s else { s with finished := true }

/-- A caller that consumes the stream to exhaustion: repeated `next()`
until `StopIteration`; `fuel` bounds the number of calls. -/
def drainGen : Nat → GenState → List (List Nat) × GenState
  | 0, s => ([], s)
  | fuel + 1, s =>
    match genNext s with
    | (none, s') => ([], s')
    | (some c, s') =>
      let rest := drainGen fuel s'
      (c :: rest.1, rest.2)

/-! ## `/channels/{channel_id}/videos` (main.py lines 219-275)

The two calls to the YouTube Data API are oracles: the first resolves the
channel (its uploads playlist, title and thumbnail), the second pages
through the uploads playlist.  The handler is embedded with an explicit
count of external calls performed, to state the fail-fast property. -/

/-- Decoded item of the channel-resolve response (`items[0]` fields read). -/
structure ChanApiItem where
  uploads : List Char
  ch_title : List Char
  ch_thumb : List Char
  deriving DecidableEq, Repr

/-- Outcome of the first external call. -/
inductive ChanApiResp
  | httpError (status : Nat) (body : List Char)
  | ok (items : List ChanApiItem)
  deriving DecidableEq, Repr

/-- One playlist item as the handler reads it (snippet/contentDetails). -/
structure PlItem where
  videoId : Option (List Char)
  title : Option (List Char)
  thumbMedium : Option (List Char)
  thumbDefault : Option (List Char)
  publishedAt : Option (List Char)
  channelTitle : Option (List Char)
  deriving DecidableEq, Repr

/-- Outcome of the second external call. -/
inductive PlApiResp
  | httpError (status : Nat) (body : List Char)
  | ok (items : List PlItem) (nextPageToken : Option (List Char))
  deriving DecidableEq, Repr

/-- The mapped video summary built in the loop (main.py lines 256-270). -/
structure VideoOut where
  videoId : Option (List Char)
  title : Option (List Char)
  thumbnail : Option (List Char)
  publishedAt : Option (List Char)
  channelTitle : Option (List Char)
  deriving DecidableEq, Repr

/-- `(thumbs.get("medium") or thumbs.get("default") or \x7b\x7d).get("url")`. -/
def mapPlItem (it : PlItem) : VideoOut :=
  { videoId := it.videoId, title := it.title,
    thumbnail := match it.thumbMedium with
      | some m => some m
      | none => it.thumbDefault,
    publishedAt := it.publishedAt, channelTitle := it.channelTitle }

/-- Successful response body of the endpoint. -/
structure ChanVideosOut where
  channel_id : List Char
  channel_title : List Char
  channel_thumb : List Char
  videos : List VideoOut
  nextPageToken : Option (List Char)
  deriving DecidableEq, Repr

/-- `/channels/{channel_id}/videos` (main.py lines 219-275).  Returns the
HTTP outcome (`Except` carries `HTTPException(status, detail)`), the number
of external API calls performed, and the channel table after the request.
`apiKey` models `YOUTUBE_API_KEY`; `if not YOUTUBE_API_KEY` is falsy for an
unset or empty variable. -/
def channel_videos (apiKey : Option (List Char)) (channel_id : List Char)
    (_page_token : Option (List Char)) (_max_results : Nat)
    (chanApi : ChanApiResp) (plApi : PlApiResp) (now : Nat)
    (db : List ChannelRow) :
    Except (Nat × List Char) ChanVideosOut × Nat × List ChannelRow :=
  if (match apiKey with | none => true | some k => k = []) then
    (Except.error (400, st "Server missing YT_API_KEY env var for channel listing"), 0, db)
  else
    match chanApi with
    | ChanApiResp.httpError s b => (Except.error (s, b), 1, db)
    | ChanApiResp.ok [] => (Except.error (404, st "Channel not found"), 1, db)
    | ChanApiResp.ok (it :: _) =>
      match plApi with
      | PlApiResp.httpError s b => (Except.error (s, b), 2, db)
      | PlApiResp.ok items next =>
        (Except.ok ⟨channel_id, it.ch_title, it.ch_thumb, items.map mapPlItem, next⟩, 2,
         upsert_channel (some channel_id) (some it.ch_title) (some it.ch_thumb) now db)

/-! # Helper lemmas -/

theorem dropLit_some_iff : ∀ (p s r : List Char), dropLit p s = some r ↔ s = p ++ r := by
  intro p
  induction p with
  | nil => intro s r; simp [dropLit, eq_comm]
  | cons x xs ih =>
    intro s r
    cases s with
    | nil => simp [dropLit]
    | cons c cs =>
      by_cases hx : x = c
      · subst hx
        simp [dropLit, ih]
      · simp [dropLit, hx, Ne.symm hx]

theorem dropLit_self (p r : List Char) : dropLit p (p ++ r) = some r := by
  rw [dropLit_some_iff]

theorem updRow_id (t th : Option (List Char)) (n : Nat) (i : List Char) (r : ChannelRow) :
    (updRow t th n i r).id = r.id := by
  unfold updRow
  split <;> rfl

theorem updRow_saved (t th : Option (List Char)) (n : Nat) (i : List Char) (r : ChannelRow) :
    (updRow t th n i r).saved_at = r.saved_at := by
  unfold updRow
  split <;> rfl

theorem find?_map_updRow (db : List ChannelRow) (t th : Option (List Char)) (n : Nat)
    (i j : List Char) :
    (db.map (updRow t th n i)).find? (byId j) = (db.find? (byId j)).map (updRow t th n i) := by
  rw [List.find?_map]
  have h : (byId j ∘ updRow t th n i) = byId j := by
    funext r
    simp [byId, Function.comp, updRow_id]
  rw [h]

theorem upsert_step (db : List ChannelRow) (ch_id : Option (List Char))
    (title thumb : Option (List Char)) (now : Nat)
    (hwf : WFdb db) (hclock : ∀ r ∈ db, r.last_used_at ≤ now) :
    WFdb (upsert_channel ch_id title thumb now db)
    ∧ (∀ r' ∈ upsert_channel ch_id title thumb now db, r'.last_used_at ≤ now)
    ∧ (∀ j r, db.find? (byId j) = some r →
        ∃ r', (upsert_channel ch_id title thumb now db).find? (byId j) = some r'
          ∧ r'.saved_at = r.saved_at) := by
  match ch_id with
  | none =>
    refine ⟨hwf, hclock, ?_⟩
    intro j r h
    exact ⟨r, h, rfl⟩
  | some i =>
    by_cases hi : i = []
    · simp only [upsert_channel, hi, if_pos rfl]
      refine ⟨hwf, hclock, ?_⟩
      intro j r h
      exact ⟨r, h, rfl⟩
    · simp only [upsert_channel, if_neg hi]
      cases hfind : db.find? (byId i) with
      | some r0 =>
        simp only []
        refine ⟨⟨?_, ?_⟩, ?_, ?_⟩
        · rw [List.pairwise_map]
          exact hwf.1.imp (fun h => by simpa [updRow_id] using h)
        · intro r hr
          rw [List.mem_map] at hr
          obtain ⟨s, hs, rfl⟩ := hr
          unfold updRow
          split
          · exact Nat.le_trans (hwf.2 s hs) (hclock s hs)
          · exact hwf.2 s hs
        · intro r hr
          rw [List.mem_map] at hr
          obtain ⟨s, hs, rfl⟩ := hr
          unfold updRow
          split
          · exact Nat.le_refl now
          · exact hclock s hs
        · intro j r h
          rw [find?_map_updRow, h]
          exact ⟨updRow title thumb now i r, rfl, updRow_saved _ _ _ _ _⟩
      | none =>
        simp only []
        rw [List.find?_eq_none] at hfind
        refine ⟨⟨?_, ?_⟩, ?_, ?_⟩
        · rw [List.pairwise_append]
          refine ⟨hwf.1, List.pairwise_singleton _ _, ?_⟩
          intro a ha b hb
          rw [List.mem_singleton] at hb
          subst hb
          intro hab
          exact hfind a ha (by simp [byId, hab])
        · intro r hr
          rw [List.mem_append] at hr
          rcases hr with hr | hr
          · exact hwf.2 r hr
          · rw [List.mem_singleton] at hr
            subst hr
            exact Nat.le_refl now
        · intro r hr
          rw [List.mem_append] at hr
          rcases hr with hr | hr
          · exact hclock r hr
          · rw [List.mem_singleton] at hr
            subst hr
            exact Nat.le_refl now
        · intro j r h
          rw [List.find?_append, h]
          exact ⟨r, rfl, rfl⟩

theorem applyOps_inv : ∀ (ops : List UpsertOp) (db : List ChannelRow),
    WFdb db → Chrono db ops →
    WFdb (applyOps db ops)
    ∧ (∀ j r, db.find? (byId j) = some r →
        ∃ r', (applyOps db ops).find? (byId j) = some r' ∧ r'.saved_at = r.saved_at) := by
  intro ops
  induction ops with
  | nil =>
    intro db hwf _
    exact ⟨hwf, fun j r h => ⟨r, h, rfl⟩⟩
  | cons op ops ih =>
    intro db hwf hc
    have hclock : ∀ r ∈ db, r.last_used_at ≤ op.time := by
      intro r hr
      exact hc.1 r hr op (List.mem_cons_self op ops)
    obtain ⟨hwf', hbound, hkeep⟩ := upsert_step db op.ch_id op.title op.thumb op.time hwf hclock
    have hc' : Chrono (upsert_channel op.ch_id op.title op.thumb op.time db) ops := by
      constructor
      · intro r hr op' hop'
        have h1 : r.last_used_at ≤ op.time := hbound r hr
        have h2 : op.time ≤ op'.time := (List.pairwise_cons.mp hc.2).1 op' hop'
        exact Nat.le_trans h1 h2
      · exact (List.pairwise_cons.mp hc.2).2
    obtain ⟨hwf'', hkeep'⟩ := ih _ hwf' hc'
    refine ⟨hwf'', ?_⟩
    intro j r h
    obtain ⟨r1, h1, hs1⟩ := hkeep j r h
    obtain ⟨r2, h2, hs2⟩ := hkeep' j r1 h1
    exact ⟨r2, h2, hs2.trans hs1⟩

theorem upsert_pair (db : List ChannelRow) (i T Th : List Char) (t1 t2 : Nat)
    (hi : i ≠ []) (hfresh : ∀ r ∈ db, r.id ≠ i) :
    ((upsert_channel (some i) (some T) (some Th) t2
        (upsert_channel (some i) (some T) (some Th) t1 db)).countP (byId i) = 1)
    ∧ (upsert_channel (some i) (some T) (some Th) t2
        (upsert_channel (some i) (some T) (some Th) t1 db)).find? (byId i)
      = some ⟨i, some T, some Th, t1, t2⟩ := by
  have hnone : db.find? (byId i) = none := by
    rw [List.find?_eq_none]
    intro x hx
    simp [byId]
    exact hfresh x hx
  have h1 : upsert_channel (some i) (some T) (some Th) t1 db
      = db ++ [⟨i, some T, some Th, t1, t1⟩] := by
    simp only [upsert_channel, if_neg hi, hnone]
  have hfind1 : (db ++ [(⟨i, some T, some Th, t1, t1⟩ : ChannelRow)]).find? (byId i)
      = some ⟨i, some T, some Th, t1, t1⟩ := by
    rw [List.find?_append, hnone]
    simp [List.find?, byId]
  have h2 : upsert_channel (some i) (some T) (some Th) t2
        (upsert_channel (some i) (some T) (some Th) t1 db)
      = (db ++ ([⟨i, some T, some Th, t1, t1⟩] : List ChannelRow)).map
          (updRow (some T) (some Th) t2 i) := by
    rw [h1]
    simp only [upsert_channel, if_neg hi, hfind1]
  constructor
  · rw [h2, List.countP_map]
    have hfun : (byId i ∘ updRow (some T) (some Th) t2 i) = byId i := by
      funext r
      simp [byId, Function.comp, updRow_id]
    rw [hfun, List.countP_append]
    have hz : db.countP (byId i) = 0 := by
      rw [List.countP_eq_zero]
      intro a ha
      simp [byId]
      exact hfresh a ha
    rw [hz]
    simp [List.countP_cons, byId]
  · rw [h2, find?_map_updRow, hfind1]
    simp [Option.map, updRow, coalesce]

theorem drain_deletes : ∀ (fuel : Nat) (s : GenState),
    s.finished = false → s.remaining.length < fuel →
    ((drainGen fuel s).2.fileExists = false ∧ (drainGen fuel s).2.finished = true) := by
  intro fuel
  induction fuel with
  | zero =>
    intro s _ h
    exact absurd h (Nat.not_lt_zero _)
  | succ n ih =>
    intro s hfin hlen
    by_cases hrem : s.remaining = []
    · simp [drainGen, genNext, hfin, hrem]
    · have hstep : genNext s
          = (some (s.remaining.take chunkSize), { s with remaining := s.remaining.drop chunkSize }) := by
        simp [genNext, hfin, hrem]
      have hlen' : ({ s with remaining := s.remaining.drop chunkSize } : GenState).remaining.length < n := by
        simp only [List.length_drop]
        have hpos : 0 < s.remaining.length := List.length_pos.mpr hrem
        have : (1024 * 1024 : Nat) = chunkSize := rfl
        omega
      have := ih { s with remaining := s.remaining.drop chunkSize } hfin hlen'
      simp only [drainGen, hstep]
      exact this

/-! # Claim theorems -/

/-- C8: for every channel id and pagination parameters, when no external-API
credential is configured (`YT_API_KEY` unset), the `/channels/.../videos`
endpoint fails with a 400 configuration error and performs zero external
calls, regardless of the channel id or what the upstream would have
answered; the channel table is untouched. -/
theorem C8_channel_videos_no_key_fails_fast (channel_id : List Char)
    (page_token : Option (List Char)) (max_results : Nat) (chanApi : ChanApiResp)
    (plApi : PlApiResp) (now : Nat) (db : List ChannelRow) :
    channel_videos none channel_id page_token max_results chanApi plApi now db
      = (Except.error (400, st "Server missing YT_API_KEY env var for channel listing"), 0, db) :=
  rfl

/-- C7: when the metadata fetch raises, the `/download` handler swallows the
failure: the channel table is returned unchanged (upsert skipped), the
fallback filename base "video" is used, and if media materialization
succeeds the response still streams it (the failure is not surfaced). -/
theorem C7_download_meta_failure_swallowed (url : List Char) (now : Nat)
    (db : List ChannelRow) (content : List Nat) :
    download url none (some content) now db
        = (db, DlResult.ok ⟨st "video.mp4", st "video/mp4", content⟩)
    ∧ download url none none now db = (db, DlResult.err500 (st "download failed")) :=
  ⟨rfl, rfl⟩

/-- C1 (code bug): the claim says the downloaded file is deleted for every
outcome of the read.  The code deletes it only when the read loop finishes:
draining the generator to exhaustion does delete the file (first conjunct),
but closing the generator early — what the server does when the caller
disconnects mid-stream — raises `GeneratorExit` at the suspended `yield`
and never reaches `os.remove`, so the file still exists (remaining
conjuncts, evaluated on a file one byte longer than one chunk, closed after
the first chunk). -/
theorem C1_full_read_deletes_but_early_close_leaves_file :
    (∀ content : List Nat,
        (drainGen (content.length + 1) (initGen content)).2.fileExists = false)
    ∧ (genNext (initGen (List.replicate (chunkSize + 1) 0))).2.finished = false
    ∧ (genNext (initGen (List.replicate (chunkSize + 1) 0))).2.remaining ≠ []
    ∧ (genClose (genNext (initGen (List.replicate (chunkSize + 1) 0))).2).finished = true
    ∧ (genClose (genNext (initGen (List.replicate (chunkSize + 1) 0))).2).fileExists = true := by
  refine ⟨?_, ?_, ?_, ?_, ?_⟩
  · intro content
    exact (drain_deletes (content.length + 1) (initGen content) rfl (Nat.lt_succ_self _)).1
  · simp [genNext, initGen]
  · simp [genNext, initGen, List.drop_replicate]
  · simp [genNext, genClose, initGen]
  · simp [genNext, genClose, initGen]

/-- C4: for an existing record, an upsert with a null title keeps the stored
title (and a null thumbnail keeps the stored thumbnail), an upsert with a
non-null title overwrites it, and in both cases `last_used_at` becomes the
upsert's timestamp. -/
theorem C4_upsert_coalesce (db : List ChannelRow) (i : List Char) (hi : ¬ i = [])
    (r : ChannelRow) (hfind : db.find? (byId i) = some r)
    (T : List Char) (th : Option (List Char)) (now now' : Nat) :
    (∃ r1, (upsert_channel (some i) none th now db).find? (byId i) = some r1
        ∧ r1.title = r.title ∧ r1.last_used_at = now)
    ∧ (∃ r2, (upsert_channel (some i) (some T) none now' db).find? (byId i) = some r2
        ∧ r2.title = some T ∧ r2.thumbnail = r.thumbnail ∧ r2.last_used_at = now') := by
  have hr_id : r.id = i := by
    have := List.find?_some hfind
    simpa [byId] using this
  constructor
  · refine ⟨updRow none th now i r, ?_, ?_, ?_⟩
    · simp only [upsert_channel, if_neg hi, hfind]
      rw [find?_map_updRow, hfind]
      rfl
    · simp [updRow, hr_id, coalesce]
    · simp [updRow, hr_id]
  · refine ⟨updRow (some T) none now' i r, ?_, ?_, ?_, ?_⟩
    · simp only [upsert_channel, if_neg hi, hfind]
      rw [find?_map_updRow, hfind]
      rfl
    · simp [updRow, hr_id, coalesce]
    · simp [updRow, hr_id, coalesce]
    · simp [updRow, hr_id]

/-- Witness for C4 at a concrete table with one record. -/
theorem C4_upsert_coalesce_witness :
    (∃ r1, (upsert_channel (some (st "UC1")) none (some (st "T1")) 5
          [⟨st "UC1", some (st "Old"), some (st "T0"), 0, 0⟩]).find? (byId (st "UC1")) = some r1
        ∧ r1.title = some (st "Old") ∧ r1.last_used_at = 5)
    ∧ (∃ r2, (upsert_channel (some (st "UC1")) (some (st "New")) none 7
          [⟨st "UC1", some (st "Old"), some (st "T0"), 0, 0⟩]).find? (byId (st "UC1")) = some r2
        ∧ r2.title = some (st "New") ∧ r2.thumbnail = some (st "T0") ∧ r2.last_used_at = 7) :=
  C4_upsert_coalesce [⟨st "UC1", some (st "Old"), some (st "T0"), 0, 0⟩] (st "UC1")
    (by decide) ⟨st "UC1", some (st "Old"), some (st "T0"), 0, 0⟩ (by decide)
    (st "New") (some (st "T1")) 5 7

/-- C5: every sequence of upserts under a non-decreasing clock preserves the
table invariant (unique ids, `saved_at ≤ last_used_at`), never modifies the
`saved_at` of an existing record, and in particular upserting a fresh id
twice with the same non-null title/thumbnail yields exactly one record for
that id whose `saved_at` is the first call's timestamp and whose
`last_used_at` is the second call's timestamp. -/
theorem C5_upsert_invariants (db : List ChannelRow) (ops : List UpsertOp)
    (hwf : WFdb db) (hc : Chrono db ops) :
    (WFdb (applyOps db ops)
     ∧ (∀ j r, db.find? (byId j) = some r →
         ∃ r', (applyOps db ops).find? (byId j) = some r' ∧ r'.saved_at = r.saved_at))
    ∧ (∀ i T Th t1 t2, ¬ i = [] → (∀ r ∈ db, r.id ≠ i) →
        ((upsert_channel (some i) (some T) (some Th) t2
            (upsert_channel (some i) (some T) (some Th) t1 db)).countP (byId i) = 1
         ∧ (upsert_channel (some i) (some T) (some Th) t2
            (upsert_channel (some i) (some T) (some Th) t1 db)).find? (byId i)
          = some ⟨i, some T, some Th, t1, t2⟩)) := by
  refine ⟨applyOps_inv ops db hwf hc, ?_⟩
  intro i T Th t1 t2 hi hfresh
  exact upsert_pair db i T Th t1 t2 hi hfresh

/-- Witness for C5: the double-upsert consequence evaluated on the empty
table. -/
theorem C5_upsert_invariants_witness :
    ((upsert_channel (some (st "a")) (some (st "T")) (some (st "H")) 4
        (upsert_channel (some (st "a")) (some (st "T")) (some (st "H")) 3 [])).countP
          (byId (st "a")) = 1)
    ∧ (upsert_channel (some (st "a")) (some (st "T")) (some (st "H")) 4
        (upsert_channel (some (st "a")) (some (st "T")) (some (st "H")) 3 [])).find?
          (byId (st "a"))
      = some ⟨st "a", some (st "T"), some (st "H"), 3, 4⟩ :=
  (C5_upsert_invariants [] [] (by simp [WFdb]) (by simp [Chrono])).2
    (st "a") (st "T") (st "H") 3 4 (by decide) (by simp)

/-- C6: the channel listing returns all records ordered by `last_used_at`
descending — it is a permutation of the table sorted by the descending
order —, and for three records touched at times t1 < t2 < t3 it returns
them in order t3, t2, t1. -/
theorem C6_list_channels_ordering (db : List ChannelRow) :
    ((list_channels db).Perm db ∧ List.Sorted lastDesc (list_channels db))
    ∧ (∀ r1 r2 r3 : ChannelRow,
        r1.last_used_at < r2.last_used_at → r2.last_used_at < r3.last_used_at →
        db.Perm [r1, r2, r3] → list_channels db = [r3, r2, r1]) := by
  refine ⟨⟨List.perm_insertionSort lastDesc db, List.sorted_insertionSort lastDesc db⟩, ?_⟩
  intro r1 r2 r3 h12 h23 hperm
  have hperm' : (list_channels db).Perm [r1, r2, r3] :=
    (List.perm_insertionSort lastDesc db).trans hperm
  have hsorted : List.Sorted lastDesc (list_channels db) :=
    List.sorted_insertionSort lastDesc db
  have hne : List.Pairwise (fun a b : ChannelRow => a.last_used_at ≠ b.last_used_at)
      [r1, r2, r3] := by
    simp [List.pairwise_cons]
    omega
  have hneL : List.Pairwise (fun a b : ChannelRow => a.last_used_at ≠ b.last_used_at)
      (list_channels db) :=
    (List.Perm.pairwise_iff (fun h => Ne.symm h) hperm').mpr hne
  have hstrict : List.Sorted lastStrictDesc (list_channels db) :=
    (hsorted.and hneL).imp (fun h => Nat.lt_of_le_of_ne h.1 (Ne.symm h.2))
  have hT : List.Sorted lastStrictDesc [r3, r2, r1] := by
    simp [List.Sorted, List.pairwise_cons, lastStrictDesc]
    omega
  exact List.eq_of_perm_of_sorted (hperm'.trans (List.reverse_perm [r1, r2, r3]).symm)
    hstrict hT

/-- Witness for C6 on a concrete three-record table with times 1 < 2 < 3. -/
theorem C6_list_channels_ordering_witness :
    list_channels [⟨st "a", none, none, 1, 1⟩, ⟨st "b", none, none, 2, 2⟩,
        ⟨st "c", none, none, 3, 3⟩]
      = [⟨st "c", none, none, 3, 3⟩, ⟨st "b", none, none, 2, 2⟩, ⟨st "a", none, none, 1, 1⟩] :=
  (C6_list_channels_ordering [⟨st "a", none, none, 1, 1⟩, ⟨st "b", none, none, 2, 2⟩,
      ⟨st "c", none, none, 3, 3⟩]).2
    ⟨st "a", none, none, 1, 1⟩ ⟨st "b", none, none, 2, 2⟩ ⟨st "c", none, none, 3, 3⟩
    (by decide) (by decide) (List.Perm.refl _)

/-! ## Lemmas about the URL normalizer -/

theorem space_not_idChar (c : Char) (h : pyIsSpace c = true) : isIdChar c = false := by
  simp only [pyIsSpace, Bool.or_eq_true, decide_eq_true_eq] at h
  rcases h with ((((h | h) | h) | h) | h) | h <;> subst h <;> decide

theorem idChar_not_space (c : Char) (h : isIdChar c = true) : pyIsSpace c = false := by
  cases hs : pyIsSpace c
  · rfl
  · rw [space_not_idChar c hs] at h
    cases h

theorem rdrop_rtake (p : Char → Bool) (l : List Char) :
    List.rdropWhile p l ++ List.rtakeWhile p l = l := by
  unfold List.rdropWhile List.rtakeWhile
  rw [← List.reverse_append, List.takeWhile_append_dropWhile, List.reverse_reverse]

theorem pyStrip_eq_self (l : List Char)
    (hh : ∀ c, l.head? = some c → pyIsSpace c = false)
    (hl : ∀ c, l.getLast? = some c → pyIsSpace c = false) :
    pyStrip l = l := by
  unfold pyStrip
  have h1 : List.dropWhile pyIsSpace l = l := by
    cases l with
    | nil => rfl
    | cons c cs =>
      have hc := hh c rfl
      rw [List.dropWhile_cons, hc]
      simp
  rw [h1, List.rdropWhile_eq_self_iff]
  intro hne
  have := hl (l.getLast hne) (List.getLast?_eq_getLast l hne)
  simp [this]

theorem pyStrip_idem (l : List Char) : pyStrip (pyStrip l) = pyStrip l := by
  unfold pyStrip
  have h1 : List.dropWhile pyIsSpace
        (List.rdropWhile pyIsSpace (List.dropWhile pyIsSpace l))
      = List.rdropWhile pyIsSpace (List.dropWhile pyIsSpace l) := by
    obtain ⟨t, ht⟩ := List.rdropWhile_prefix pyIsSpace (List.dropWhile pyIsSpace l)
    cases hB : List.rdropWhile pyIsSpace (List.dropWhile pyIsSpace l) with
    | nil => rfl
    | cons b bs =>
      rw [hB] at ht
      have hAcons : List.dropWhile pyIsSpace l = b :: (bs ++ t) := by
        rw [← ht]; rfl
      have hAne : List.dropWhile pyIsSpace l ≠ [] := by simp [hAcons]
      have hhead : pyIsSpace ((List.dropWhile pyIsSpace l).head hAne) = false :=
        List.head_dropWhile_not pyIsSpace l hAne
      have hb : (List.dropWhile pyIsSpace l).head hAne = b := by
        simp [hAcons]
      rw [hb] at hhead
      rw [List.dropWhile_cons, hhead]
      simp
  rw [h1, List.rdropWhile_idempotent]

theorem pyStrip_infix (l : List Char) : ∃ a b, l = a ++ (pyStrip l ++ b) := by
  refine ⟨List.takeWhile pyIsSpace l,
    List.rtakeWhile pyIsSpace (List.dropWhile pyIsSpace l), ?_⟩
  unfold pyStrip
  rw [rdrop_rtake, List.takeWhile_append_dropWhile]

theorem length_takeWhile_append_le (p : Char → Bool) : ∀ (l r : List Char),
    (l.takeWhile p).length ≤ ((l ++ r).takeWhile p).length := by
  intro l
  induction l with
  | nil => intro r; simp
  | cons c cs ih =>
    intro r
    by_cases hc : p c
    · simpa [List.takeWhile_cons, hc] using Nat.succ_le_succ (ih r)
    · simp [List.takeWhile_cons, hc]

theorem tryLits_some : ∀ (ls : List (List Char)) (s l r : List Char),
    tryLits ls s = some (l, r) → l ∈ ls ∧ s = l ++ r := by
  intro ls
  induction ls with
  | nil => intro s l r h; simp [tryLits] at h
  | cons x xs ih =>
    intro s l r h
    cases hd : dropLit x s with
    | some r0 =>
      simp only [tryLits, hd, Option.some.injEq, Prod.mk.injEq] at h
      obtain ⟨rfl, rfl⟩ := h
      exact ⟨List.mem_cons_self x xs, (dropLit_some_iff x s r0).mp hd⟩
    | none =>
      simp only [tryLits, hd] at h
      obtain ⟨hm, hs⟩ := ih s l r h
      exact ⟨List.mem_cons_of_mem x hm, hs⟩

theorem tryLits_scheme_https (r : List Char) :
    tryLits schemeLits (st "https://" ++ r) = some (st "https://", r) := rfl

theorem tryLits_scheme_http (r : List Char) :
    tryLits schemeLits (st "http://" ++ r) = some (st "http://", r) := rfl

theorem tryLits_shorts_www (r : List Char) :
    tryLits shortsLits (st "www.youtube.com/shorts/" ++ r)
      = some (st "www.youtube.com/shorts/", r) := rfl

theorem tryLits_shorts_plain (r : List Char) :
    tryLits shortsLits (st "youtube.com/shorts/" ++ r)
      = some (st "youtube.com/shorts/", r) := rfl

theorem tryLits_watch_wwwWatch (r : List Char) :
    tryLits watchLits (st "www.youtube.com/watch?v=" ++ r)
      = some (st "www.youtube.com/watch?v=", r) := rfl

theorem tryLits_watch_wwwBe (r : List Char) :
    tryLits watchLits (st "www.youtu.be/" ++ r) = some (st "www.youtu.be/", r) := rfl

theorem tryLits_watch_watch (r : List Char) :
    tryLits watchLits (st "youtube.com/watch?v=" ++ r)
      = some (st "youtube.com/watch?v=", r) := rfl

theorem tryLits_watch_be (r : List Char) :
    tryLits watchLits (st "youtu.be/" ++ r) = some (st "youtu.be/", r) := rfl

theorem matchShortsAt_eval (sch core tail : List Char) (hsch : sch ∈ schemeLits)
    (hcore : core ∈ shortsLits) :
    matchShortsAt (sch ++ (core ++ tail))
      = (if 6 ≤ (tail.takeWhile isIdChar).length
         then some (tail.takeWhile isIdChar) else none) := by
  simp only [schemeLits, List.mem_cons, List.mem_singleton, List.not_mem_nil, or_false] at hsch
  simp only [shortsLits, List.mem_cons, List.mem_singleton, List.not_mem_nil, or_false] at hcore
  rcases hsch with rfl | rfl <;> rcases hcore with rfl | rfl <;>
    simp only [matchShortsAt, tryLits_scheme_https, tryLits_scheme_http,
      tryLits_shorts_www, tryLits_shorts_plain]

theorem matchWatchAt_eval (sch core tail : List Char) (hsch : sch ∈ schemeLits)
    (hcore : core ∈ watchLits) :
    matchWatchAt (sch ++ (core ++ tail))
      = (if 6 ≤ (tail.takeWhile isIdChar).length
         then some (sch ++ core ++ tail.takeWhile isIdChar) else none) := by
  simp only [schemeLits, List.mem_cons, List.mem_singleton, List.not_mem_nil, or_false] at hsch
  simp only [watchLits, List.mem_cons, List.mem_singleton, List.not_mem_nil, or_false] at hcore
  rcases hsch with rfl | rfl <;> rcases hcore with rfl | rfl | rfl | rfl <;>
    simp only [matchWatchAt, tryLits_scheme_https, tryLits_scheme_http,
      tryLits_watch_wwwWatch, tryLits_watch_wwwBe, tryLits_watch_watch, tryLits_watch_be]

theorem matchShortsAt_some_inv (t id : List Char) (h : matchShortsAt t = some id) :
    ∃ l1 r1 l2 r2, tryLits schemeLits t = some (l1, r1)
      ∧ tryLits shortsLits r1 = some (l2, r2)
      ∧ id = r2.takeWhile isIdChar ∧ 6 ≤ (r2.takeWhile isIdChar).length := by
  cases h1 : tryLits schemeLits t with
  | none => simp [matchShortsAt, h1] at h
  | some pr1 =>
    obtain ⟨l1, r1⟩ := pr1
    cases h2 : tryLits shortsLits r1 with
    | none => simp [matchShortsAt, h1, h2] at h
    | some pr2 =>
      obtain ⟨l2, r2⟩ := pr2
      by_cases hlen : 6 ≤ (r2.takeWhile isIdChar).length
      · simp only [matchShortsAt, h1, h2, if_pos hlen, Option.some.injEq] at h
        exact ⟨l1, r1, l2, r2, rfl, h2, h.symm, hlen⟩
      · simp [matchShortsAt, h1, h2, if_neg hlen] at h

theorem matchWatchAt_some_inv (t m : List Char) (h : matchWatchAt t = some m) :
    ∃ l1 r1 l2 r2, tryLits schemeLits t = some (l1, r1)
      ∧ tryLits watchLits r1 = some (l2, r2)
      ∧ m = l1 ++ l2 ++ r2.takeWhile isIdChar ∧ 6 ≤ (r2.takeWhile isIdChar).length := by
  cases h1 : tryLits schemeLits t with
  | none => simp [matchWatchAt, h1] at h
  | some pr1 =>
    obtain ⟨l1, r1⟩ := pr1
    cases h2 : tryLits watchLits r1 with
    | none => simp [matchWatchAt, h1, h2] at h
    | some pr2 =>
      obtain ⟨l2, r2⟩ := pr2
      by_cases hlen : 6 ≤ (r2.takeWhile isIdChar).length
      · simp only [matchWatchAt, h1, h2, if_pos hlen, Option.some.injEq] at h
        exact ⟨l1, r1, l2, r2, rfl, h2, h.symm, hlen⟩
      · simp [matchWatchAt, h1, h2, if_neg hlen] at h

theorem matchShortsAt_append (t c id : List Char) (h : matchShortsAt t = some id) :
    ∃ id', matchShortsAt (t ++ c) = some id' := by
  obtain ⟨l1, r1, l2, r2, h1, h2, _, hlen⟩ := matchShortsAt_some_inv t id h
  obtain ⟨hm1, hs1⟩ := tryLits_some schemeLits t l1 r1 h1
  obtain ⟨hm2, hs2⟩ := tryLits_some shortsLits r1 l2 r2 h2
  have hshape : t ++ c = l1 ++ (l2 ++ (r2 ++ c)) := by
    rw [hs1, hs2]
    simp [List.append_assoc]
  have hlen' : 6 ≤ ((r2 ++ c).takeWhile isIdChar).length :=
    le_trans hlen (length_takeWhile_append_le isIdChar r2 c)
  rw [hshape, matchShortsAt_eval l1 l2 (r2 ++ c) hm1 hm2, if_pos hlen']
  exact ⟨_, rfl⟩

theorem matchWatchAt_append (t c m : List Char) (h : matchWatchAt t = some m) :
    ∃ m', matchWatchAt (t ++ c) = some m' := by
  obtain ⟨l1, r1, l2, r2, h1, h2, _, hlen⟩ := matchWatchAt_some_inv t m h
  obtain ⟨hm1, hs1⟩ := tryLits_some schemeLits t l1 r1 h1
  obtain ⟨hm2, hs2⟩ := tryLits_some watchLits r1 l2 r2 h2
  have hshape : t ++ c = l1 ++ (l2 ++ (r2 ++ c)) := by
    rw [hs1, hs2]
    simp [List.append_assoc]
  have hlen' : 6 ≤ ((r2 ++ c).takeWhile isIdChar).length :=
    le_trans hlen (length_takeWhile_append_le isIdChar r2 c)
  rw [hshape, matchWatchAt_eval l1 l2 (r2 ++ c) hm1 hm2, if_pos hlen']
  exact ⟨_, rfl⟩

theorem searchShorts_cons (c : Char) (cs : List Char) :
    searchShorts (c :: cs)
      = match matchShortsAt (c :: cs) with
        | some r => some r
        | none => searchShorts cs := rfl

theorem searchWatch_cons (c : Char) (cs : List Char) :
    searchWatch (c :: cs)
      = match matchWatchAt (c :: cs) with
        | some r => some r
        | none => searchWatch cs := rfl

theorem searchShorts_cons_some (l r : List Char) (hne : l ≠ [])
    (h : matchShortsAt l = some r) : searchShorts l = some r := by
  cases l with
  | nil => exact absurd rfl hne
  | cons c cs => rw [searchShorts_cons, h]

theorem searchWatch_cons_some (l r : List Char) (hne : l ≠ [])
    (h : matchWatchAt l = some r) : searchWatch l = some r := by
  cases l with
  | nil => exact absurd rfl hne
  | cons c cs => rw [searchWatch_cons, h]

theorem searchShorts_append_left (a b : List Char) (h : searchShorts (a ++ b) = none) :
    searchShorts b = none := by
  induction a with
  | nil => exact h
  | cons x xs ih =>
    apply ih
    rw [List.cons_append, searchShorts_cons] at h
    cases hm : matchShortsAt (x :: (xs ++ b)) with
    | some r => rw [hm] at h; simp at h
    | none => rw [hm] at h; exact h

theorem searchWatch_append_left (a b : List Char) (h : searchWatch (a ++ b) = none) :
    searchWatch b = none := by
  induction a with
  | nil => exact h
  | cons x xs ih =>
    apply ih
    rw [List.cons_append, searchWatch_cons] at h
    cases hm : matchWatchAt (x :: (xs ++ b)) with
    | some r => rw [hm] at h; simp at h
    | none => rw [hm] at h; exact h

theorem searchShorts_append_right (b c : List Char) (h : searchShorts (b ++ c) = none) :
    searchShorts b = none := by
  induction b with
  | nil => rfl
  | cons x xs ih =>
    rw [List.cons_append, searchShorts_cons] at h
    rw [searchShorts_cons]
    cases hm : matchShortsAt (x :: xs) with
    | some r =>
      obtain ⟨id', hid'⟩ := matchShortsAt_append (x :: xs) c r hm
      rw [List.cons_append] at hid'
      rw [hid'] at h
      simp at h
    | none =>
      apply ih
      cases hm2 : matchShortsAt (x :: (xs ++ c)) with
      | some r => rw [hm2] at h; simp at h
      | none => rw [hm2] at h; exact h

theorem searchWatch_append_right (b c : List Char) (h : searchWatch (b ++ c) = none) :
    searchWatch b = none := by
  induction b with
  | nil => rfl
  | cons x xs ih =>
    rw [List.cons_append, searchWatch_cons] at h
    rw [searchWatch_cons]
    cases hm : matchWatchAt (x :: xs) with
    | some r =>
      obtain ⟨m', hm'⟩ := matchWatchAt_append (x :: xs) c r hm
      rw [List.cons_append] at hm'
      rw [hm'] at h
      simp at h
    | none =>
      apply ih
      cases hm2 : matchWatchAt (x :: (xs ++ c)) with
      | some r => rw [hm2] at h; simp at h
      | none => rw [hm2] at h; exact h

theorem searchShorts_some_inv (l id : List Char) (h : searchShorts l = some id) :
    (∀ c ∈ id, isIdChar c = true) ∧ 6 ≤ id.length := by
  induction l with
  | nil => simp [searchShorts] at h
  | cons x xs ih =>
    rw [searchShorts_cons] at h
    cases hm : matchShortsAt (x :: xs) with
    | some r =>
      rw [hm] at h
      simp only [Option.some.injEq] at h
      obtain ⟨l1, r1, l2, r2, _, _, hid, hlen⟩ := matchShortsAt_some_inv (x :: xs) r hm
      rw [← h, hid]
      exact ⟨fun c hc => List.mem_takeWhile_imp hc, hlen⟩
    | none =>
      rw [hm] at h
      exact ih h

theorem searchWatch_some_inv (l m : List Char) (h : searchWatch l = some m) :
    ∃ sch core id, sch ∈ schemeLits ∧ core ∈ watchLits ∧ m = sch ++ (core ++ id)
      ∧ (∀ c ∈ id, isIdChar c = true) ∧ 6 ≤ id.length := by
  induction l with
  | nil => simp [searchWatch] at h
  | cons x xs ih =>
    rw [searchWatch_cons] at h
    cases hm : matchWatchAt (x :: xs) with
    | some r =>
      rw [hm] at h
      simp only [Option.some.injEq] at h
      obtain ⟨l1, r1, l2, r2, h1, h2, hid, hlen⟩ := matchWatchAt_some_inv (x :: xs) r hm
      obtain ⟨hm1, _⟩ := tryLits_some schemeLits (x :: xs) l1 r1 h1
      obtain ⟨hm2, _⟩ := tryLits_some watchLits r1 l2 r2 h2
      refine ⟨l1, l2, r2.takeWhile isIdChar, hm1, hm2, ?_, ?_, hlen⟩
      · rw [← h, hid, List.append_assoc]
      · exact fun c hc => List.mem_takeWhile_imp hc
    | none =>
      rw [hm] at h
      exact ih h

theorem matchShortsAt_idOnly (t : List Char) (h : ∀ c ∈ t, isIdChar c = true) :
    matchShortsAt t = none := by
  cases h1 : tryLits schemeLits t with
  | none => simp [matchShortsAt, h1]
  | some pr =>
    obtain ⟨l1, r1⟩ := pr
    obtain ⟨hm, hs⟩ := tryLits_some schemeLits t l1 r1 h1
    exfalso
    simp only [schemeLits, List.mem_cons, List.mem_singleton, List.not_mem_nil, or_false] at hm
    have hcolon : (':' : Char) ∈ l1 := by
      rcases hm with rfl | rfl <;> decide
    have hmem : (':' : Char) ∈ t := by
      rw [hs]
      exact List.mem_append_left r1 hcolon
    exact absurd (h ':' hmem) (by decide)

theorem searchShorts_idOnly (t : List Char) (h : ∀ c ∈ t, isIdChar c = true) :
    searchShorts t = none := by
  induction t with
  | nil => rfl
  | cons x xs ih =>
    rw [searchShorts_cons, matchShortsAt_idOnly (x :: xs) h]
    exact ih (fun c hc => h c (List.mem_cons_of_mem x hc))

theorem pyStrip_scheme_shape (sch mid id : List Char) (hsch : sch ∈ schemeLits)
    (hidne : id ≠ []) (hid : ∀ c ∈ id, isIdChar c = true) :
    pyStrip (sch ++ (mid ++ id)) = sch ++ (mid ++ id) := by
  simp only [schemeLits, List.mem_cons, List.mem_singleton, List.not_mem_nil, or_false] at hsch
  apply pyStrip_eq_self
  · intro c hc
    rcases hsch with rfl | rfl
    · rw [show (st "https://" ++ (mid ++ id)).head? = some 'h' from rfl] at hc
      cases hc
      decide
    · rw [show (st "http://" ++ (mid ++ id)).head? = some 'h' from rfl] at hc
      cases hc
      decide
  · intro c hc
    rw [List.getLast?_append, List.getLast?_append,
      List.getLast?_eq_getLast id hidne, Option.or_some, Option.or_some] at hc
    cases hc
    exact idChar_not_space _ (hid _ (List.getLast_mem hidne))

theorem searchShorts_skip (sch core id : List Char) (hsch : sch ∈ schemeLits)
    (hcore : core ∈ watchLits) :
    searchShorts (sch ++ (core ++ id)) = searchShorts id := by
  simp only [schemeLits, List.mem_cons, List.mem_singleton, List.not_mem_nil, or_false] at hsch
  simp only [watchLits, List.mem_cons, List.mem_singleton, List.not_mem_nil, or_false] at hcore
  rcases hsch with rfl | rfl <;> rcases hcore with rfl | rfl | rfl | rfl <;> rfl

theorem searchWatch_full (sch core id : List Char) (hsch : sch ∈ schemeLits)
    (hcore : core ∈ watchLits) (hid : ∀ c ∈ id, isIdChar c = true) (hlen : 6 ≤ id.length)
    (hne : sch ++ (core ++ id) ≠ []) :
    searchWatch (sch ++ (core ++ id)) = some (sch ++ (core ++ id)) := by
  apply searchWatch_cons_some _ _ hne
  rw [matchWatchAt_eval sch core id hsch hcore, List.takeWhile_eq_self_iff.mpr hid,
    if_pos hlen, List.append_assoc]

theorem clean_fixed_watch (sch core id : List Char) (hsch : sch ∈ schemeLits)
    (hcore : core ∈ watchLits) (hid : ∀ c ∈ id, isIdChar c = true) (hlen : 6 ≤ id.length) :
    clean_youtube_url (sch ++ (core ++ id)) = sch ++ (core ++ id) := by
  have hidne : id ≠ [] := List.ne_nil_of_length_pos (by omega)
  have hne : sch ++ (core ++ id) ≠ [] :=
    List.append_ne_nil_of_right_ne_nil sch (List.append_ne_nil_of_right_ne_nil core hidne)
  have hstrip := pyStrip_scheme_shape sch core id hsch hidne hid
  have hskip := searchShorts_skip sch core id hsch hcore
  have hsid := searchShorts_idOnly id hid
  have hw := searchWatch_full sch core id hsch hcore hid hlen hne
  simp only [clean_youtube_url, hstrip, hskip, hsid, hw]

theorem clean_fixed_canon (id : List Char) (hid : ∀ c ∈ id, isIdChar c = true)
    (hlen : 6 ≤ id.length) :
    clean_youtube_url (st "https://www.youtube.com/watch?v=" ++ id)
      = st "https://www.youtube.com/watch?v=" ++ id := by
  rw [show st "https://www.youtube.com/watch?v="
      = st "https://" ++ st "www.youtube.com/watch?v=" from rfl, List.append_assoc]
  exact clean_fixed_watch (st "https://") (st "www.youtube.com/watch?v=") id
    (by decide) (by decide) hid hlen

/-- C2: every input of the "shorts" URL shape — scheme (`http`/`https`),
optional `www.`, `youtube.com/shorts/`, then a video id of at least 6
URL-safe characters (word characters or hyphen) — is rewritten to exactly
the canonical watch URL carrying that id. -/
theorem C2_shorts_rewritten_to_watch (sch core id : List Char)
    (hsch : sch ∈ schemeLits) (hcore : core ∈ shortsLits)
    (hid : ∀ c ∈ id, isIdChar c = true) (hlen : 6 ≤ id.length) :
    clean_youtube_url (sch ++ (core ++ id))
      = st "https://www.youtube.com/watch?v=" ++ id := by
  have hidne : id ≠ [] := List.ne_nil_of_length_pos (by omega)
  have hne : sch ++ (core ++ id) ≠ [] :=
    List.append_ne_nil_of_right_ne_nil sch (List.append_ne_nil_of_right_ne_nil core hidne)
  have hstrip := pyStrip_scheme_shape sch core id hsch hidne hid
  have hm : matchShortsAt (sch ++ (core ++ id)) = some id := by
    rw [matchShortsAt_eval sch core id hsch hcore, List.takeWhile_eq_self_iff.mpr hid,
      if_pos hlen]
  have hs := searchShorts_cons_some _ _ hne hm
  simp only [clean_youtube_url, hstrip, hs]

/-- Witness for C2 at the concrete URL
`https://www.youtube.com/shorts/abc123`. -/
theorem C2_shorts_rewritten_to_watch_witness :
    clean_youtube_url (st "https://" ++ (st "www.youtube.com/shorts/" ++ st "abc123"))
      = st "https://www.youtube.com/watch?v=" ++ st "abc123" :=
  C2_shorts_rewritten_to_watch (st "https://") (st "www.youtube.com/shorts/") (st "abc123")
    (by decide) (by decide) (by decide) (by decide)

/-- C3: an input in which neither regex finds a match anywhere is returned
unchanged except for whitespace trimming (and the normalizer, a total
function, raises no error on any input). -/
theorem C3_unrecognized_passthrough (url : List Char)
    (hs : searchShorts url = none) (hw : searchWatch url = none) :
    clean_youtube_url url = pyStrip url := by
  obtain ⟨a, b, hab⟩ := pyStrip_infix url
  have hs1 : searchShorts (pyStrip url ++ b) = none := by
    apply searchShorts_append_left a
    rw [← hab]
    exact hs
  have hs2 : searchShorts (pyStrip url) = none := searchShorts_append_right _ b hs1
  have hw1 : searchWatch (pyStrip url ++ b) = none := by
    apply searchWatch_append_left a
    rw [← hab]
    exact hw
  have hw2 : searchWatch (pyStrip url) = none := searchWatch_append_right _ b hw1
  simp only [clean_youtube_url, hs2, hw2]

/-- Witness for C3 on the concrete input `" hello world "`. -/
theorem C3_unrecognized_passthrough_witness :
    clean_youtube_url (st " hello world ") = pyStrip (st " hello world ") :=
  C3_unrecognized_passthrough (st " hello world ") rfl rfl

/-- C10: the URL normalizer is idempotent. -/
theorem C10_clean_youtube_url_idempotent (s : List Char) :
    clean_youtube_url (clean_youtube_url s) = clean_youtube_url s := by
  cases hs : searchShorts (pyStrip s) with
  | some id =>
    have hres : clean_youtube_url s = st "https://www.youtube.com/watch?v=" ++ id := by
      simp only [clean_youtube_url, hs]
    obtain ⟨hid, hlen⟩ := searchShorts_some_inv _ _ hs
    rw [hres]
    exact clean_fixed_canon id hid hlen
  | none =>
    cases hw : searchWatch (pyStrip s) with
    | some m =>
      have hres : clean_youtube_url s = m := by
        simp only [clean_youtube_url, hs, hw]
      obtain ⟨sch, core, id, hsch, hcore, hm, hid, hlen⟩ := searchWatch_some_inv _ _ hw
      rw [hres, hm]
      exact clean_fixed_watch sch core id hsch hcore hid hlen
    | none =>
      have hres : clean_youtube_url s = pyStrip s := by
        simp only [clean_youtube_url, hs, hw]
      rw [hres]
      simp only [clean_youtube_url, pyStrip_idem, hs, hw]

/-- Counterexample to C9 as stated: for the title `" x"` the download
response's filename is `"x.mp4"` (the code trims surrounding whitespace
before truncating), while the claim's derivation — truncate to 100, strip
newlines, replace characters outside `[\w\- .]`, append `".mp4"` — yields
`" x.mp4"`. -/
theorem C9_filename_counterexample :
    (download (st "u") (some ⟨some (st " x"), none, none, none⟩) (some []) 0 []).2
        = DlResult.ok ⟨st "x.mp4", st "video/mp4", []⟩
    ∧ st "x.mp4" ≠ specDisplayName (some (st " x")) := by
  constructor
  · rfl
  · decide

/-- C9 (amended): the `Content-Disposition` filename of every download
response equals the source's derivation — title (or `"video"` when the
title is missing or empty), surrounding whitespace trimmed, newlines
replaced by spaces, truncated to 100 characters, every character outside
word-characters/hyphen/space/period replaced by underscore, with `".mp4"`
appended. -/
theorem C9_filename_amended (url : List Char) (meta : Option VideoInfo)
    (content : List Nat) (now : Nat) (db : List ChannelRow) :
    (download url meta (some content) now db).2
      = DlResult.ok ⟨derivedFilename (meta.bind VideoInfo.title), st "video/mp4", content⟩ := by
  cases meta with
  | none => rfl
  | some info => rfl
